import Mathlib

/-!
Verification of the sentiment-scoring pipeline in `src/sentiment.py`.

Strings are modelled as `List Char`.  Python's `str.lower` is modelled
per-character by Lean's `Char.toLower` (the ASCII lowercase map), and the
regex word-character class `\w` of `CountVectorizer`'s default
`token_pattern` `(?u)\b\w\w+\b` is modelled by ASCII alphanumerics plus
underscore.  The pickled scikit-learn model and vocabulary are external
artifacts; the classifier is modelled from the spec (see
`predictPositiveProbability`), while the vectorizer and `clean_text` are
translated directly from the source.
-/

namespace Sentiment

/-- Membership in Python's `string.punctuation`: the 32 ASCII punctuation
characters, i.e. code points 33-47, 58-64, 91-96 and 123-126. -/
def isPunct (c : Char) : Bool :=
  decide ((33 ≤ c.toNat ∧ c.toNat ≤ 47) ∨ (58 ≤ c.toNat ∧ c.toNat ≤ 64) ∨
    (91 ≤ c.toNat ∧ c.toNat ≤ 96) ∨ (123 ≤ c.toNat ∧ c.toNat ≤ 126))

/-- `text.translate(table)` with `table = str.maketrans('', '', string.punctuation)`:
every ASCII punctuation character is deleted, all other characters kept. -/
def translate_table (s : List Char) : List Char :=
  s.filter (fun c => !isPunct c)

/-- State-passing model of `re.sub(' +', ' ', s)`: the Bool records whether the
previously emitted character was a space, so each maximal run of one or more
literal space characters is emitted as a single space. -/
def collapseAux : Bool → List Char → List Char
  | _, [] => []
  | prevSpace, c :: rest =>
    if c = ' ' then
      if prevSpace then collapseAux true rest else ' ' :: collapseAux true rest
    else c :: collapseAux false rest

/-- `re.sub(' +', ' ', s)`: collapse each run of literal spaces to one space. -/
def re_sub_spaces (s : List Char) : List Char :=
  collapseAux false s

/-- `clean_text(text)` from the source:
`re.sub(' +', ' ', text.translate(table).lower())`. -/
def clean_text (text : List Char) : List Char :=
  re_sub_spaces ((translate_table text).map Char.toLower)

/-- The regex word-character class `\w`, restricted to ASCII: lowercase
letters (97-122), uppercase letters (65-90), digits (48-57) and the
underscore (95). -/
def isWordChar (c : Char) : Bool :=
  decide ((97 ≤ c.toNat ∧ c.toNat ≤ 122) ∨ (65 ≤ c.toNat ∧ c.toNat ≤ 90) ∨
    (48 ≤ c.toNat ∧ c.toNat ≤ 57) ∨ c.toNat = 95)

/-- Maximal runs of characters satisfying `p`; `cur` holds the (reversed)
run currently being scanned. -/
def runsByAux (p : Char → Bool) : List Char → List Char → List (List Char)
  | cur, [] => if cur.isEmpty then [] else [cur.reverse]
  | cur, c :: rest =>
    if p c then runsByAux p (c :: cur) rest
    else if cur.isEmpty then runsByAux p [] rest
    else cur.reverse :: runsByAux p [] rest

/-- The maximal runs of characters satisfying `p` in `s`, in order; characters
failing `p` act as separators and are discarded. -/
def runsBy (p : Char → Bool) (s : List Char) : List (List Char) :=
  runsByAux p [] s

/-- `CountVectorizer`'s default tokenizer `token_pattern=r"(?u)\b\w\w+\b"`:
`findall` returns the maximal runs of word characters that have at least two
characters, in order. -/
def tokenize (s : List Char) : List (List Char) :=
  (runsBy isWordChar s).filter (fun t => 2 ≤ t.length)

/-- The stop-word list passed to `CountVectorizer` in the source. -/
def stop_words : List (List Char) :=
  [['i'], ['w','e'], ['y','o','u'], ['t','h','e'], ['a','n','d'], ['a','m'], ['a','r','e']]

/-- Adjacent-pair bigrams of a token stream, each pair joined by a single
space, as built by `CountVectorizer._word_ngrams` for `n = 2`. -/
def bigrams : List (List Char) → List (List Char)
  | a :: b :: rest => (a ++ ' ' :: b) :: bigrams (b :: rest)
  | _ => []

/-- `CountVectorizer._word_ngrams` with `ngram_range=(1, 2)`: stop words are
removed from the token stream first, then the surviving unigrams are emitted
followed by the adjacent-pair bigrams of the filtered stream. -/
def word_ngrams (tokens : List (List Char)) : List (List Char) :=
  let filtered := tokens.filter (fun t => !stop_words.contains t)
  filtered ++ bigrams filtered

/-- The unigram stream before stop-word filtering: `CountVectorizer`'s
analyzer lowercases the document (`lowercase=True` is the default) and then
applies the default token pattern. -/
def unigram_stream (doc : List Char) : List (List Char) :=
  tokenize (doc.map Char.toLower)

/-- `CountVectorizer.build_analyzer()` for the source's configuration:
lowercase, tokenize with the default token pattern, drop stop words, emit
unigrams and bigrams. -/
def analyze (doc : List Char) : List (List Char) :=
  word_ngrams (unigram_stream doc)

/-- `CountVectorizer.transform` on one document with a fixed vocabulary: the
vocabulary maps the n-gram at position `i` to column `i`, and column `i`
counts the occurrences of that n-gram among the document's analyzed n-grams.
N-grams absent from the vocabulary are ignored. -/
def transform (vocab : List (List Char)) (doc : List Char) : List Nat :=
  vocab.map (fun g => (analyze doc).count g)

/-- Error taxonomy of the spec that applies to scoring. -/
inductive SentimentError where
  | dimensionMismatch
deriving DecidableEq

/-- Modelled from the spec: the `ClassifierParameters` artifact
(`Data/sentiment_analysis.pkl` is not in the repository) as the spec's design
note prescribes — a small struct of linear coefficients and an intercept for
a logistic model. -/
structure ClassifierParameters where
  weights : List ℝ
  intercept : ℝ

/-- The logistic (sigmoid) transform used by the modelled classifier. -/
noncomputable def sigmoid (x : ℝ) : ℝ :=
  1 / (1 + Real.exp (-x))

/-- Modelled from the spec: `Classifier.predictPositiveProbability`
(`model.predict_proba(...)[0][1]` in the source, whose pickled model is not
in the repository) — fails with `DimensionMismatch` when the feature vector's
length differs from the dimensionality the parameters expect, and otherwise
returns the positive-class probability of the logistic model. -/
noncomputable def predictPositiveProbability (p : ClassifierParameters)
    (v : List Nat) : Except SentimentError ℝ :=
  if v.length = p.weights.length then
    .ok (sigmoid ((List.zipWith (fun w x => w * (x : ℝ)) p.weights v).sum + p.intercept))
  else
    .error .dimensionMismatch

/-- `analyze_text(text)` from the source, the public entry point:
`model.predict_proba(vectorizer.transform([clean_text(text)]))[0][1]`, with
the pickled model replaced by the spec-modelled classifier. -/
noncomputable def analyze_text (p : ClassifierParameters)
    (vocab : List (List Char)) (text : List Char) : Except SentimentError ℝ :=
  predictPositiveProbability p (transform vocab (clean_text text))

/-- Written from the spec's words for `normalize`, to be compared with
`clean_text`: lowercase all characters, delete every ASCII punctuation
character, then collapse each run of literal spaces to one space. -/
def normalize_spec (s : List Char) : List Char :=
  re_sub_spaces ((s.map Char.toLower).filter (fun c => !isPunct c))

/-- The ASCII whitespace class of Python's `str.split`: space (32), tab (9),
newline (10), carriage return (13), vertical tab (11) and form feed (12). -/
def isSpaceChar (c : Char) : Bool :=
  decide (c.toNat = 32 ∨ c.toNat = 9 ∨ c.toNat = 10 ∨ c.toNat = 13 ∨
    c.toNat = 11 ∨ c.toNat = 12)

/-- Written from the spec's words for the tokenizer, to be compared with
`tokenize`: the maximal runs of non-whitespace characters, in order. -/
def whitespace_unigrams_spec (s : List Char) : List (List Char) :=
  runsBy (fun c => !isSpaceChar c) s

/-- Replace each tab or newline character by a single space, leaving every
other character unchanged. -/
def replaceTabsNewlines (s : List Char) : List Char :=
  s.map (fun c => if c = '\t' ∨ c = '\n' then ' ' else c)

/-! ### Character-level lemmas -/

theorem toNat_ofNat_valid (n : Nat) (h : n.isValidChar) : (Char.ofNat n).toNat = n := by
  rw [Char.ofNat, dif_pos h]; rfl

theorem char_eq_of_toNat_eq {a b : Char} (h : a.toNat = b.toNat) : a = b := by
  rw [← Char.ofNat_toNat a, ← Char.ofNat_toNat b, h]

theorem char_eq_iff_toNat {a b : Char} : a = b ↔ a.toNat = b.toNat :=
  ⟨fun h => congrArg Char.toNat h, char_eq_of_toNat_eq⟩

theorem toLower_toNat (c : Char) :
    c.toLower.toNat = if 65 ≤ c.toNat ∧ c.toNat ≤ 90 then c.toNat + 32 else c.toNat := by
  by_cases h : 65 ≤ c.toNat ∧ c.toNat ≤ 90
  · rw [if_pos h]
    unfold Char.toLower
    rw [if_pos ⟨h.1, h.2⟩]
    exact toNat_ofNat_valid _ (Or.inl (by omega))
  · rw [if_neg h]
    unfold Char.toLower
    rw [if_neg (fun hc => h ⟨hc.1, hc.2⟩)]

theorem toLower_toLower (c : Char) : c.toLower.toLower = c.toLower := by
  apply char_eq_of_toNat_eq
  rw [toLower_toNat c.toLower, toLower_toNat c]
  split_ifs <;> omega

theorem isPunct_toLower (c : Char) : isPunct c.toLower = isPunct c := by
  unfold isPunct
  rw [decide_eq_decide, toLower_toNat]
  split_ifs <;> omega

theorem isWordChar_toLower (c : Char) : isWordChar c.toLower = isWordChar c := by
  unfold isWordChar
  rw [decide_eq_decide, toLower_toNat]
  split_ifs <;> omega

theorem isSpaceChar_toLower (c : Char) : isSpaceChar c.toLower = isSpaceChar c := by
  unfold isSpaceChar
  rw [decide_eq_decide, toLower_toNat]
  split_ifs <;> omega

theorem toLower_eq_space_iff (c : Char) : c.toLower = ' ' ↔ c = ' ' := by
  rw [char_eq_iff_toNat, char_eq_iff_toNat, toLower_toNat]
  have h32 : (' ' : Char).toNat = 32 := by decide
  rw [h32]
  split_ifs <;> omega

/-! ### Lemmas about space collapsing -/

theorem mem_collapseAux : ∀ (l : List Char) (b : Bool) (c : Char),
    c ∈ collapseAux b l → c ∈ l := by
  intro l
  induction l with
  | nil => intro b c h; simp [collapseAux] at h
  | cons d rest ih =>
    intro b c h
    by_cases hd : d = ' '
    · subst hd
      simp only [collapseAux, if_pos rfl] at h
      cases b with
      | true => exact List.mem_cons_of_mem _ (ih true c h)
      | false =>
        rcases List.mem_cons.mp h with h1 | h1
        · exact h1 ▸ List.mem_cons_self _ _
        · exact List.mem_cons_of_mem _ (ih true c h1)
    · simp only [collapseAux, if_neg hd] at h
      rcases List.mem_cons.mp h with h1 | h1
      · exact h1 ▸ List.mem_cons_self _ _
      · exact List.mem_cons_of_mem _ (ih false c h1)

theorem collapseAux_idem : ∀ (l : List Char) (b : Bool),
    collapseAux b (collapseAux b l) = collapseAux b l := by
  intro l
  induction l with
  | nil => intro b; rfl
  | cons c rest ih =>
    intro b
    by_cases hc : c = ' '
    · subst hc
      cases b with
      | true => simp [collapseAux, ih true]
      | false => simp [collapseAux, ih true]
    · cases b with
      | true => simp [collapseAux, hc, ih false]
      | false => simp [collapseAux, hc, ih false]

theorem collapseAux_map_toLower : ∀ (l : List Char) (b : Bool),
    collapseAux b (l.map Char.toLower) = (collapseAux b l).map Char.toLower := by
  intro l
  induction l with
  | nil => intro b; rfl
  | cons c rest ih =>
    intro b
    by_cases hc : c = ' '
    · subst hc
      have hl : Char.toLower ' ' = ' ' := by decide
      cases b with
      | true => simp [collapseAux, hl, ih true]
      | false => simp [collapseAux, hl, ih true]
    · have hl : Char.toLower c ≠ ' ' := fun h => hc ((toLower_eq_space_iff c).mp h)
      cases b with
      | true => simp [collapseAux, hc, hl, ih false]
      | false => simp [collapseAux, hc, hl, ih false]

/-! ### Lemmas about maximal runs -/

theorem runsByAux_congr (p q : Char → Bool) :
    ∀ (l : List Char), (∀ c ∈ l, p c = q c) →
      ∀ cur, runsByAux p cur l = runsByAux q cur l := by
  intro l
  induction l with
  | nil => intro _ cur; rfl
  | cons c rest ih =>
    intro h cur
    have hc : p c = q c := h c (List.mem_cons_self _ _)
    have hrest : ∀ d ∈ rest, p d = q d := fun d hd => h d (List.mem_cons_of_mem _ hd)
    by_cases hpc : p c = true
    · have hqc : q c = true := hc ▸ hpc
      simp [runsByAux, hpc, hqc, ih hrest]
    · have hpc' : p c = false := by revert hpc; cases p c <;> simp
      have hqc : q c = false := hc ▸ hpc'
      simp [runsByAux, hpc', hqc, ih hrest]

theorem runsByAux_map (p : Char → Bool) (f : Char → Char)
    (hf : ∀ c, p (f c) = p c) (hid : ∀ c, p c = true → f c = c) :
    ∀ (l : List Char) (cur : List Char),
      runsByAux p cur (l.map f) = runsByAux p cur l := by
  intro l
  induction l with
  | nil => intro cur; rfl
  | cons c rest ih =>
    intro cur
    by_cases hpc : p c = true
    · simp [runsByAux, hf c, hpc, hid c hpc, ih]
    · have hpc' : p c = false := by revert hpc; cases p c <;> simp
      simp [runsByAux, hf c, hpc', ih]

theorem runsByAux_collapseAux (p : Char → Bool) (hp : p ' ' = false) :
    ∀ l : List Char,
      runsByAux p [] (collapseAux true l) = runsByAux p [] l ∧
      ∀ cur, runsByAux p cur (collapseAux false l) = runsByAux p cur l := by
  intro l
  induction l with
  | nil => exact ⟨rfl, fun _ => rfl⟩
  | cons c rest ih =>
    by_cases hc : c = ' '
    · subst hc
      constructor
      · simp [collapseAux, runsByAux, hp, ih.1]
      · intro cur
        simp [collapseAux, runsByAux, hp, ih.1]
    · constructor
      · simp only [collapseAux, if_neg hc]
        by_cases hpc : p c = true
        · simp [runsByAux, hpc, ih.2]
        · have hpc' : p c = false := by revert hpc; cases p c <;> simp
          simp [runsByAux, hpc', ih.2]
      · intro cur
        simp only [collapseAux, if_neg hc]
        by_cases hpc : p c = true
        · simp [runsByAux, hpc, ih.2]
        · have hpc' : p c = false := by revert hpc; cases p c <;> simp
          simp [runsByAux, hpc', ih.2]

/-! ### Lemmas about bigrams -/

theorem mem_bigrams : ∀ (l : List (List Char)) (x : List Char),
    x ∈ bigrams l → ∃ a b, a ∈ l ∧ b ∈ l ∧ x = a ++ ' ' :: b := by
  intro l
  induction l with
  | nil => intro x h; simp [bigrams] at h
  | cons a rest ih =>
    intro x h
    cases rest with
    | nil => simp [bigrams] at h
    | cons b rest2 =>
      rw [show bigrams (a :: b :: rest2) = (a ++ ' ' :: b) :: bigrams (b :: rest2) from rfl] at h
      rcases List.mem_cons.mp h with h1 | h1
      · exact ⟨a, b, List.mem_cons_self _ _,
          List.mem_cons_of_mem _ (List.mem_cons_self _ _), h1⟩
      · obtain ⟨u, v, hu, hv, he⟩ := ih x h1
        exact ⟨u, v, List.mem_cons_of_mem _ hu, List.mem_cons_of_mem _ hv, he⟩

/-! ### Lemmas about the modelled classifier -/

theorem sigmoid_nonneg (x : ℝ) : 0 ≤ sigmoid x := by
  unfold sigmoid
  positivity

theorem sigmoid_le_one (x : ℝ) : sigmoid x ≤ 1 := by
  unfold sigmoid
  rw [div_le_one (by positivity)]
  linarith [Real.exp_pos (-x)]

/-! ### Claim theorems -/

/-- Claim C1: for every input string, the public entry point `analyze_text`
returns a score in the closed interval [0, 1] (the classifier is modelled
from the spec as a logistic model over the feature vector). -/
theorem analyze_text_in_unit_interval (p : ClassifierParameters)
    (vocab : List (List Char)) (text : List Char)
    (h : p.weights.length = vocab.length) :
    ∃ r, analyze_text p vocab text = Except.ok r ∧ 0 ≤ r ∧ r ≤ 1 := by
  have hl : (transform vocab (clean_text text)).length = p.weights.length := by
    unfold transform
    rw [List.length_map, h]
  unfold analyze_text predictPositiveProbability
  rw [if_pos hl]
  exact ⟨_, rfl, sigmoid_nonneg _, sigmoid_le_one _⟩

/-- Witness for C1: a concrete scoring call succeeds with a score in [0, 1]. -/
theorem analyze_text_in_unit_interval_witness :
    ∃ r, analyze_text ⟨[], 0⟩ [] [] = Except.ok r ∧ 0 ≤ r ∧ r ≤ 1 :=
  analyze_text_in_unit_interval ⟨[], 0⟩ [] [] rfl

/-- Claim C2: stop-word removal happens before bigram construction.  For the
input "I love the movie" and a vocabulary containing "love movie",
"love the" and "the movie", the analyzer emits the bigram "love movie"
(adjacency after "the" is removed) and neither "love the" nor "the movie",
so the counts are [1, 0, 0]. -/
theorem stop_word_removal_precedes_bigrams :
    analyze (clean_text "I love the movie".toList) =
      ["love".toList, "movie".toList, "love movie".toList] ∧
    transform ["love movie".toList, "love the".toList, "the movie".toList]
      (clean_text "I love the movie".toList) = [1, 0, 0] := by
  exact ⟨by decide, by decide⟩

/-- Claim C4: `clean_text` agrees with the spec's description of `normalize`
(lowercase every character, delete every ASCII punctuation character,
collapse runs of literal spaces), maps "Hello,   World!!" to "hello world",
maps "" to "", and leaves tabs and newlines intact. -/
theorem clean_text_normalize_behavior :
    (∀ s, clean_text s = normalize_spec s) ∧
    clean_text "Hello,   World!!".toList = "hello world".toList ∧
    clean_text "".toList = [] ∧
    clean_text "a\t\tb".toList = "a\t\tb".toList := by
  refine ⟨fun s => ?_, by decide, by decide, by decide⟩
  unfold clean_text normalize_spec translate_table
  congr 1
  rw [List.filter_map]
  congr 1
  apply List.filter_congr
  intro x _
  simp [Function.comp, isPunct_toLower]

/-- Claim C5: `clean_text` is idempotent. -/
theorem clean_text_idempotent (s : List Char) :
    clean_text (clean_text s) = clean_text s := by
  have hu : ∀ c ∈ (translate_table s).map Char.toLower,
      isPunct c = false ∧ Char.toLower c = c := by
    intro c hc
    obtain ⟨d, hd, rfl⟩ := List.mem_map.mp hc
    unfold translate_table at hd
    have hdp : isPunct d = false := by
      have h2 := (List.mem_filter.mp hd).2
      simpa using h2
    exact ⟨by rw [isPunct_toLower]; exact hdp, toLower_toLower d⟩
  have hX : ∀ c ∈ clean_text s, isPunct c = false ∧ Char.toLower c = c := by
    intro c hc
    exact hu c (mem_collapseAux _ false c hc)
  have h1 : translate_table (clean_text s) = clean_text s := by
    unfold translate_table
    apply List.filter_eq_self.mpr
    intro a ha
    simp [(hX a ha).1]
  have h2 : (clean_text s).map Char.toLower = clean_text s := by
    have := List.map_congr_left (l := clean_text s)
      (f := Char.toLower) (g := fun a => a) (fun a ha => (hX a ha).2)
    simpa using this
  have h3 : re_sub_spaces (clean_text s) = clean_text s :=
    collapseAux_idem ((translate_table s).map Char.toLower) false
  calc clean_text (clean_text s)
      = re_sub_spaces ((translate_table (clean_text s)).map Char.toLower) := rfl
    _ = re_sub_spaces ((clean_text s).map Char.toLower) := by rw [h1]
    _ = re_sub_spaces (clean_text s) := by rw [h2]
    _ = clean_text s := h3

/-- Claim C6: the feature vector produced for any input has exactly one
entry per vocabulary item, whatever the input. -/
theorem transform_length_eq_vocab (vocab : List (List Char)) (text : List Char) :
    (transform vocab (clean_text text)).length = vocab.length := by
  unfold transform
  exact List.length_map _ _

/-- Claim C7: the normalize/transform pipeline is total, and any input none
of whose analyzed n-grams is in the vocabulary — the empty string and
punctuation-only or stop-word-only inputs included — yields the all-zero
feature vector of the vocabulary's length. -/
theorem transform_oov_all_zero (vocab : List (List Char)) (text : List Char)
    (h : ∀ g ∈ analyze (clean_text text), g ∉ vocab) :
    transform vocab (clean_text text) = List.replicate vocab.length 0 := by
  unfold transform
  apply List.eq_replicate_iff.mpr
  refine ⟨List.length_map _ _, ?_⟩
  intro n hn
  obtain ⟨g, hg, rfl⟩ := List.mem_map.mp hn
  apply List.count_eq_zero.mpr
  intro hmem
  exact h _ hmem hg

/-- Witness for C7: the empty string and a punctuation-plus-stop-word string
both produce the all-zero vector over a one-entry vocabulary. -/
theorem transform_oov_all_zero_witness :
    transform ["good".toList] (clean_text "".toList) = List.replicate 1 0 ∧
    transform ["good".toList] (clean_text "!!! the".toList) = List.replicate 1 0 :=
  ⟨transform_oov_all_zero _ _ (by decide), transform_oov_all_zero _ _ (by decide)⟩

/-- Claim C8: the modelled classifier fails with `DimensionMismatch` exactly
when the feature vector's length differs from the dimensionality the
parameters expect, and never silently truncates or pads. -/
theorem predict_dimension_mismatch_iff (p : ClassifierParameters) (v : List Nat) :
    predictPositiveProbability p v = .error .dimensionMismatch ↔
      v.length ≠ p.weights.length := by
  unfold predictPositiveProbability
  split_ifs with h
  · simp [h]
  · simp [h]

/-- Witness for C8: a one-entry feature vector against zero-dimensional
parameters is rejected with `DimensionMismatch`. -/
theorem predict_dimension_mismatch_iff_witness :
    predictPositiveProbability ⟨[], 0⟩ [0] = .error .dimensionMismatch :=
  (predict_dimension_mismatch_iff ⟨[], 0⟩ [0]).mpr (by decide)

/-- Claim C9: every token in the vectorizer's unigram stream, and every
n-gram it counts, has at least two characters; single-character tokens never
contribute to any feature. -/
theorem tokens_at_least_two_chars (doc : List Char) (t : List Char) :
    (t ∈ unigram_stream doc → 2 ≤ t.length) ∧
    (t ∈ analyze doc → 2 ≤ t.length) := by
  have h1 : ∀ u : List Char, u ∈ unigram_stream doc → 2 ≤ u.length := by
    intro u hu
    unfold unigram_stream tokenize at hu
    have h2 := (List.mem_filter.mp hu).2
    simpa using h2
  refine ⟨h1 t, fun ht => ?_⟩
  simp only [analyze, word_ngrams] at ht
  rcases List.mem_append.mp ht with h | h
  · exact h1 t (List.mem_filter.mp h).1
  · obtain ⟨a, b, ha, hb, rfl⟩ := mem_bigrams _ _ h
    have h3 := h1 a (List.mem_filter.mp ha).1
    simp only [List.length_append, List.length_cons]
    omega

/-- Witness for C9: concrete tokens of the stream and of the analyzed
n-grams are at least two characters long. -/
theorem tokens_at_least_two_chars_witness :
    2 ≤ ("good".toList).length ∧ 2 ≤ ("good movie".toList).length :=
  ⟨(tokens_at_least_two_chars "good movie".toList "good".toList).1 (by decide),
   (tokens_at_least_two_chars "good movie".toList "good movie".toList).2 (by decide)⟩

theorem isWordChar_not_space (c : Char) (h : isWordChar c = true) :
    isSpaceChar c = false := by
  unfold isWordChar at h
  unfold isSpaceChar
  rw [decide_eq_true_eq] at h
  rw [decide_eq_false_iff_not]
  omega

theorem isSpaceChar_not_word (c : Char) (h : isSpaceChar c = true) :
    isWordChar c = false := by
  unfold isSpaceChar at h
  unfold isWordChar
  rw [decide_eq_true_eq] at h
  rw [decide_eq_false_iff_not]
  omega

/-- Counterexample to claim C3: "a" is a normalized string (it is a fixed
point of `clean_text`), yet the unigram stream on it is empty while its
whitespace-delimited maximal runs are ["a"] — the default token pattern
drops single-character tokens, so the stream is not the whitespace-delimited
unigrams. -/
theorem tokenize_whitespace_claim_ce :
    clean_text "a".toList = "a".toList ∧
    unigram_stream "a".toList ≠ whitespace_unigrams_spec "a".toList := by
  exact ⟨by decide, by decide⟩

/-- Claim C3 as amended: on normalized input whose characters are all word
characters or whitespace, the unigram stream is exactly the
whitespace-delimited maximal runs (of the lowercased input) that have at
least two characters; runs of one character are dropped. -/
theorem tokenize_word_runs (doc : List Char)
    (h : ∀ c ∈ doc, isWordChar c = true ∨ isSpaceChar c = true) :
    unigram_stream doc =
      (whitespace_unigrams_spec (doc.map Char.toLower)).filter
        (fun t => 2 ≤ t.length) := by
  unfold unigram_stream tokenize whitespace_unigrams_spec
  congr 1
  unfold runsBy
  apply runsByAux_congr
  intro c hc
  obtain ⟨d, hd, rfl⟩ := List.mem_map.mp hc
  rcases h d hd with hw | hs
  · have hw' : isWordChar (Char.toLower d) = true := by
      rw [isWordChar_toLower]; exact hw
    have hns : isSpaceChar (Char.toLower d) = false := isWordChar_not_space _ hw'
    simp [hw', hns]
  · have hs' : isSpaceChar (Char.toLower d) = true := by
      rw [isSpaceChar_toLower]; exact hs
    have hnw : isWordChar (Char.toLower d) = false := isSpaceChar_not_word _ hs'
    simp [hs', hnw]

/-- Witness for the amended C3: on "Good movie" the stream equals the
length-filtered whitespace runs of the lowercased text. -/
theorem tokenize_word_runs_witness :
    unigram_stream "Good movie".toList =
      (whitespace_unigrams_spec ("Good movie".toList.map Char.toLower)).filter
        (fun t => 2 ≤ t.length) :=
  tokenize_word_runs "Good movie".toList (by decide)

theorem tab_newline_cond_iff (c : Char) :
    (c = '\t' ∨ c = '\n') ↔ (c.toNat = 9 ∨ c.toNat = 10) := by
  rw [char_eq_iff_toNat, char_eq_iff_toNat]
  rw [show ('\t' : Char).toNat = 9 from by decide,
    show ('\n' : Char).toNat = 10 from by decide]

theorem replace_toLower_comm (c : Char) :
    Char.toLower (if c = '\t' ∨ c = '\n' then ' ' else c) =
      (if Char.toLower c = '\t' ∨ Char.toLower c = '\n' then ' '
       else Char.toLower c) := by
  by_cases h : c = '\t' ∨ c = '\n'
  · have hn := (tab_newline_cond_iff c).mp h
    have hlc : Char.toLower c = c := by
      apply char_eq_of_toNat_eq
      rw [toLower_toNat]
      split_ifs <;> omega
    rw [if_pos h, hlc, if_pos h]
    decide
  · have hn : ¬(c.toNat = 9 ∨ c.toNat = 10) := fun hh => h ((tab_newline_cond_iff c).mpr hh)
    have h2 : ¬(Char.toLower c = '\t' ∨ Char.toLower c = '\n') := by
      intro hh
      have h3 := (tab_newline_cond_iff _).mp hh
      rw [toLower_toNat] at h3
      apply hn
      revert h3
      split_ifs <;> omega
    rw [if_neg h, if_neg h2]

theorem replace_map_toLower (l : List Char) :
    (replaceTabsNewlines l).map Char.toLower =
      replaceTabsNewlines (l.map Char.toLower) := by
  unfold replaceTabsNewlines
  rw [List.map_map, List.map_map]
  apply List.map_congr_left
  intro c _
  exact replace_toLower_comm c

theorem replace_filter_punct (l : List Char) :
    (replaceTabsNewlines l).filter (fun c => !isPunct c) =
      replaceTabsNewlines (l.filter (fun c => !isPunct c)) := by
  unfold replaceTabsNewlines
  rw [List.filter_map]
  congr 1
  apply List.filter_congr
  intro c _
  simp only [Function.comp]
  by_cases h : c = '\t' ∨ c = '\n'
  · rw [if_pos h]
    rcases h with h | h <;> subst h <;> decide
  · rw [if_neg h]

theorem replace_preserves_wordChar (c : Char) :
    isWordChar (if c = '\t' ∨ c = '\n' then ' ' else c) = isWordChar c := by
  by_cases h : c = '\t' ∨ c = '\n'
  · rw [if_pos h]
    rcases h with h | h <;> subst h <;> decide
  · rw [if_neg h]

theorem replace_fixes_wordChar (c : Char) (hc : isWordChar c = true) :
    (if c = '\t' ∨ c = '\n' then ' ' else c) = c := by
  by_cases h : c = '\t' ∨ c = '\n'
  · exfalso
    rcases h with h | h <;> subst h <;> exact absurd hc (by decide)
  · rw [if_neg h]

theorem stream_replace_eq (s : List Char) :
    unigram_stream (clean_text (replaceTabsNewlines s)) =
      unigram_stream (clean_text s) := by
  unfold unigram_stream tokenize clean_text re_sub_spaces translate_table
  congr 1
  unfold runsBy
  rw [← collapseAux_map_toLower, ← collapseAux_map_toLower]
  rw [(runsByAux_collapseAux isWordChar (by decide) _).2,
    (runsByAux_collapseAux isWordChar (by decide) _).2]
  have e1 : (((replaceTabsNewlines s).filter (fun c => !isPunct c)).map
        Char.toLower).map Char.toLower =
      replaceTabsNewlines (((s.filter (fun c => !isPunct c)).map
        Char.toLower).map Char.toLower) := by
    rw [replace_filter_punct, replace_map_toLower, replace_map_toLower]
  rw [e1]
  exact runsByAux_map isWordChar _ replace_preserves_wordChar
    replace_fixes_wordChar _ []

/-- Claim C10: the feature vector is invariant under replacing each tab or
newline in the input by a single space, even though `clean_text` collapses
only literal space runs and leaves tabs and newlines in its output. -/
theorem transform_tab_newline_invariant (vocab : List (List Char)) (s : List Char) :
    transform vocab (clean_text (replaceTabsNewlines s)) =
      transform vocab (clean_text s) := by
  unfold transform analyze
  rw [stream_replace_eq]

end Sentiment
